import Mathlib

/-!
Verification development for the slack-cluster-finder clustering core.

The definitions below are a shallow embedding of the Python sources:
  - `backend/hierarchical_clustering_service.py` (conversation grouping,
    topic clustering, small-cluster filtering),
  - `backend/clustering_service.py` (cosine distance matrix, flat
    small-cluster filtering, representative-message selection),
  - `backend/cluster_orchestrator.py` (cache key, cache save/load,
    process_messages pipeline skeleton).

Machine floats are modelled as rationals (`ℚ`) except where a claim is
about vector norms (which need square roots); those definitions live in a
real-number section.  Timestamps are modelled after parsing, as integer
seconds, since the grouping logic only uses differences of parsed
timestamps in seconds.
-/

attribute [local semireducible] Rat.add Rat.mul Rat.sub Rat.inv

namespace SlackCluster

/-! ### Rational vector helpers (numpy operations used by the sources) -/

/-- `np.dot(a, b)` for two vectors, modelled on rationals. -/
def dotQ (a b : List ℚ) : ℚ := (List.zipWith (· * ·) a b).sum

/-- Sum of squares of a rational vector (the square of `np.linalg.norm`). -/
def sumSqQ (v : List ℚ) : ℚ := (v.map (fun x => x * x)).sum

/-- Squared Euclidean distance between two vectors; the Ward/'euclidean'
metric used by `AgglomerativeClustering` in `_cluster_level` compares
Euclidean distances, which for nonnegative thresholds is equivalent to
comparing squared distances. -/
def euclidSq (a b : List ℚ) : ℚ := sumSqQ (List.zipWith (· - ·) a b)

/-- Distinct values of a list in order of first occurrence (the order in
which a Python dict built by insertion enumerates its keys). -/
def uniqueInOrder : List ℕ → List ℕ
  | [] => []
  | a :: l => a :: (uniqueInOrder l).filter (fun x => x ≠ a)

/-- `sorted(np.unique(l))`: the distinct values of `l` in ascending order. -/
def uniqueSorted (l : List ℕ) : List ℕ :=
  (uniqueInOrder l).insertionSort (· ≤ ·)

/-- Python's `min` over a nonempty collection of naturals (0 on empty). -/
def listMin : List ℕ → ℕ
  | [] => 0
  | [a] => a
  | a :: b :: l => min a (listMin (b :: l))

/-! ### Conversation grouper (`_group_by_conversation`)

A message, as seen by the grouper after timestamp parsing: its channel
and its timestamp in seconds.  The grouper works on the enumerated list
`(index, message)`; `msg_data` records in the source carry the original
index in their `'idx'` field. -/

structure PMsg where
  channel : String
  ts : Int
deriving DecidableEq, Repr

/-- Python's `msg_data.sort(key=lambda x: (x['channel'], x['timestamp']))`
is a stable sort by the key `(channel, timestamp)`, i.e. it orders the
records by `(channel, timestamp, original position)`.  This is that order
on the enumerated list.
The channel comparison is stated on `String.data` (`s < t` for strings is
by definition the lexicographic order on their character lists, see
`String.lt_iff_toList_lt`); stating it on the character lists lets the
kernel evaluate it. -/
def stableLE (a b : ℕ × PMsg) : Prop :=
  a.2.channel.data < b.2.channel.data ∨
    (a.2.channel = b.2.channel ∧
      (a.2.ts < b.2.ts ∨ (a.2.ts = b.2.ts ∧ a.1 ≤ b.1)))

instance : DecidableRel stableLE := fun a b => by unfold stableLE; infer_instance

theorem stableLE_total (a b : ℕ × PMsg) : stableLE a b ∨ stableLE b a := by
  unfold stableLE
  rcases lt_trichotomy a.2.channel.data b.2.channel.data with h | h | h
  · exact Or.inl (Or.inl h)
  · have he : a.2.channel = b.2.channel := String.ext h
    rcases lt_trichotomy a.2.ts b.2.ts with h' | h' | h'
    · exact Or.inl (Or.inr ⟨he, Or.inl h'⟩)
    · rcases Nat.le_total a.1 b.1 with h'' | h''
      · exact Or.inl (Or.inr ⟨he, Or.inr ⟨h', h''⟩⟩)
      · exact Or.inr (Or.inr ⟨he.symm, Or.inr ⟨h'.symm, h''⟩⟩)
    · exact Or.inr (Or.inr ⟨he.symm, Or.inl h'⟩)
  · exact Or.inr (Or.inl h)

instance : IsTotal (ℕ × PMsg) stableLE where
  total := stableLE_total

instance : IsTrans (ℕ × PMsg) stableLE where
  trans a b c hab hbc := by
    unfold stableLE at *
    rcases hab with h | ⟨he, h⟩
    · rcases hbc with h' | ⟨he', _⟩
      · exact Or.inl (h.trans h')
      · exact Or.inl (he' ▸ h)
    · rcases hbc with h' | ⟨he', h'⟩
      · exact Or.inl (he ▸ h')
      · refine Or.inr ⟨he.trans he', ?_⟩
        rcases h with h | ⟨ht, hi⟩
        · rcases h' with h' | ⟨ht', _⟩
          · exact Or.inl (h.trans h')
          · exact Or.inl (ht' ▸ h)
        · rcases h' with h' | ⟨ht', hi'⟩
          · exact Or.inl (ht ▸ h')
          · exact Or.inr ⟨ht.trans ht', hi.trans hi'⟩

/-- The stable `(channel, timestamp)` sort of the enumerated messages. -/
def sortMsgs (msgs : List PMsg) : List (ℕ × PMsg) :=
  msgs.enum.insertionSort stableLE

/-- The scan loop of `_group_by_conversation`: walks the sorted records
carrying `current_channel`, `last_timestamp`, `current_conv` and the
accumulated `conversations`, starting a new conversation when the channel
changes or the time gap exceeds the threshold. -/
def scanLoop (gap : Int) :
    List (ℕ × PMsg) → Option String → Option Int → List ℕ → List (List ℕ) → List (List ℕ)
  | [], _, _, cur, convs => if cur = [] then convs else convs ++ [cur]
  | (i, m) :: rest, curCh, lastTs, cur, convs =>
    if !decide (curCh = some m.channel) ||
        (match lastTs with
         | some t => decide (m.ts - t > gap)
         | none => false) then
      scanLoop gap rest (some m.channel) (some m.ts) [i]
        (if cur = [] then convs else convs ++ [cur])
    else
      scanLoop gap rest curCh (some m.ts) (cur ++ [i]) convs

/-- `_group_by_conversation(range(n), messages)` with time-gap threshold
`gap` (the source hard-codes `time_gap_threshold = 3600`): sort the
enumerated messages by `(channel, timestamp)` (stably), then scan.  The
dict `{i: conv for i, conv in enumerate(conversations)}` is modelled as
the list of conversations, position = conversation index. -/
def groupByConversation (gap : Int) (msgs : List PMsg) : List (List ℕ) :=
  scanLoop gap (sortMsgs msgs) none none [] []

/-- The source's hard-coded `time_gap_threshold` (seconds). -/
def timeGapThreshold : Int := 3600

/-- Service default `min_sub_cluster_size` (minimum messages per
conversation according to the constructor documentation). -/
def minSubClusterSize : ℕ := 3

/-- Service default `min_main_cluster_size` (minimum conversations per
topic). -/
def minMainClusterSize : ℕ := 5

/-- Service default `max_clusters`. -/
def maxClusters : ℕ := 15

/-- Service default `main_cluster_threshold`. -/
def mainClusterThreshold : ℚ := 12 / 10

/-! Spec-side description of the grouper, following the claim's words:
scan the stably-sorted list in order, starting a new conversation exactly
when the channel differs from the previous message's channel or the gap
to the previous message's timestamp strictly exceeds the threshold. -/

/-- One chunk step of the claimed grouping rule: `prev` is the previous
message, `acc` the members of the conversation currently being built. -/
def specGo (gap : Int) : PMsg → List ℕ → List (ℕ × PMsg) → List (List ℕ)
  | _, acc, [] => [acc]
  | prev, acc, (i, m) :: rest =>
    if m.channel ≠ prev.channel ∨ m.ts - prev.ts > gap then
      acc :: specGo gap m [i] rest
    else
      specGo gap m (acc ++ [i]) rest

/-- The claimed grouping: chunk the stably `(channel, timestamp)`-sorted
message list at exactly the channel-change / gap-exceeded boundaries. -/
def specGroupByConversation (gap : Int) (msgs : List PMsg) : List (List ℕ) :=
  match sortMsgs msgs with
  | [] => []
  | (i, m) :: rest => specGo gap m [i] rest

/-- The scan condition of `scanLoop`, once a previous message exists,
decides exactly the boundary predicate of the claimed rule. -/
theorem scan_cond (prev m : PMsg) (gap : Int) :
    ((!decide (some prev.channel = some m.channel) ||
       (match (some prev.ts : Option Int) with
        | some t => decide (m.ts - t > gap)
        | none => false)) = true)
      ↔ (m.channel ≠ prev.channel ∨ m.ts - prev.ts > gap) := by
  show (!decide (some prev.channel = some m.channel) ||
      decide (m.ts - prev.ts > gap)) = true ↔ _
  rw [Bool.or_eq_true, Bool.not_eq_true', decide_eq_false_iff_not, decide_eq_true_eq]
  constructor
  · rintro (h | h)
    · exact Or.inl fun he => h (congrArg some he.symm)
    · exact Or.inr h
  · rintro (h | h)
    · exact Or.inl fun he => h (Option.some.inj he).symm
    · exact Or.inr h

/-- Mid-scan, `scanLoop` emits the already-closed conversations followed by
the chunks of the claimed rule. -/
theorem scanLoop_eq_specGo (gap : Int) (rest : List (ℕ × PMsg)) :
    ∀ (prev : PMsg) (cur : List ℕ) (convs : List (List ℕ)), cur ≠ [] →
      scanLoop gap rest (some prev.channel) (some prev.ts) cur convs
        = convs ++ specGo gap prev cur rest := by
  induction rest with
  | nil =>
    intro prev cur convs hcur
    simp [scanLoop, specGo, hcur]
  | cons p rest ih =>
    obtain ⟨i, m⟩ := p
    intro prev cur convs hcur
    by_cases hb : m.channel ≠ prev.channel ∨ m.ts - prev.ts > gap
    · rw [scanLoop, if_pos ((scan_cond prev m gap).mpr hb), if_neg hcur,
        specGo, if_pos hb, ih m [i] (convs ++ [cur]) (by simp)]
      simp
    · have hch : m.channel = prev.channel := by
        by_contra hne
        exact hb (Or.inl hne)
      have hcnd := fun hc => hb ((scan_cond prev m gap).mp hc)
      rw [scanLoop, if_neg hcnd, specGo, if_neg hb]
      have := ih m (cur ++ [i]) convs (by simp)
      rw [hch] at this
      exact this

/-- The conversation grouper scan agrees with the claimed chunking rule on
the stably sorted list. -/
theorem groupByConversation_eq_spec (gap : Int) (msgs : List PMsg) :
    groupByConversation gap msgs = specGroupByConversation gap msgs := by
  unfold groupByConversation specGroupByConversation
  cases h : sortMsgs msgs with
  | nil => simp [scanLoop]
  | cons p rest =>
    obtain ⟨i, m⟩ := p
    rw [scanLoop, if_pos (by simp)]
    simpa using scanLoop_eq_specGo gap rest m [i] [] (by simp)

/-! ### Topic grouping (`create_hierarchy`, steps 4)

Given one topic label per conversation, `create_hierarchy` builds
`topic_clusters` (a dict from topic id to the conversation indices with
that label, in first-occurrence order of the labels) and for each topic
concatenates the member conversations' message indices. -/

/-- `topic_clusters`: for each distinct topic label (first-occurrence
order), the conversation indices carrying it. -/
def convIndicesByTopic (labels : List ℕ) : List (List ℕ) :=
  (uniqueInOrder labels).map (fun t => (labels.enum.filter (fun p => p.2 = t)).map (·.1))

/-- Each topic's `message_indices`: the concatenation of its member
conversations' message-index lists. -/
def topicMessageIndices (labels : List ℕ) (groups : List (List ℕ)) : List (List ℕ) :=
  (convIndicesByTopic labels).map (fun convIdxs => (convIdxs.map (fun j => groups.getD j [])).flatten)

theorem mem_uniqueInOrder (a : ℕ) : ∀ (l : List ℕ), a ∈ uniqueInOrder l ↔ a ∈ l
  | [] => Iff.rfl
  | b :: l => by
    by_cases hab : a = b
    · subst hab; simp [uniqueInOrder]
    · simp [uniqueInOrder, hab, List.mem_filter, mem_uniqueInOrder a l]

theorem nodup_uniqueInOrder : ∀ (l : List ℕ), (uniqueInOrder l).Nodup
  | [] => List.nodup_nil
  | b :: l => by
    rw [uniqueInOrder]
    refine List.Nodup.cons ?_ ((nodup_uniqueInOrder l).filter _)
    intro hmem
    simpa using List.of_mem_filter hmem

/-- Bucketing a list of pairs by the second component over any duplicate-free
cover of its values is a permutation of the list. -/
theorem bucket_perm : ∀ (ts : List ℕ) (ps : List (ℕ × ℕ)), ts.Nodup →
    (∀ p ∈ ps, p.2 ∈ ts) →
    ((ts.map (fun t => ps.filter (fun p => p.2 = t))).flatten).Perm ps
  | [], ps, _, hcov => by
    have : ps = [] := by
      cases ps with
      | nil => rfl
      | cons p ps => exact absurd (hcov p (by simp)) (by simp)
    simp [this]
  | t :: ts, ps, hnd, hcov => by
    have hstep :
        ∀ u ∈ ts, ps.filter (fun p => p.2 = u)
          = (ps.filter (fun p => ¬ p.2 = t)).filter (fun p => p.2 = u) := by
      intro u hu
      have hut : u ≠ t := fun h => (List.nodup_cons.mp hnd).1 (h ▸ hu)
      rw [List.filter_filter]
      apply List.filter_congr
      intro p _
      by_cases hp : p.2 = u
      · simp [hp, hut]
      · simp [hp]
    have hmap : ts.map (fun u => ps.filter (fun p => p.2 = u))
        = ts.map (fun u => (ps.filter (fun p => ¬ p.2 = t)).filter (fun p => p.2 = u)) :=
      List.map_congr_left hstep
    rw [List.map_cons, List.flatten_cons, hmap]
    have ih := bucket_perm ts (ps.filter (fun p => ¬ p.2 = t))
      (List.nodup_cons.mp hnd).2
      (by
        intro p hp
        have hmem := List.of_mem_filter hp
        have : p.2 ∈ t :: ts := hcov p (List.mem_of_mem_filter hp)
        rcases List.mem_cons.mp this with h | h
        · exact absurd h (by simpa using hmem)
        · exact h)
    refine List.Perm.trans (ih.append_left _) ?_
    simpa using List.filter_append_perm (fun p => p.2 = t) ps

/-- The conversation-index buckets of the topics partition the conversation
indices: their concatenation is a permutation of `range labels.length`. -/
theorem convIndicesByTopic_flatten_perm (labels : List ℕ) :
    ((convIndicesByTopic labels).flatten).Perm (List.range labels.length) := by
  unfold convIndicesByTopic
  have h := bucket_perm (uniqueInOrder labels) labels.enum (nodup_uniqueInOrder labels)
    (by
      intro p hp
      rw [mem_uniqueInOrder]
      have := List.enum_map_snd labels
      exact this ▸ List.mem_map_of_mem Prod.snd hp)
  have hmap := h.map (·.1)
  rw [List.map_flatten] at hmap
  simp only [List.map_map] at hmap
  simpa [Function.comp, List.enum_map_fst] using hmap

/-- Chunking loses no record: the chunks of `specGo` concatenate to the
accumulated conversation followed by the remaining indices in order. -/
theorem specGo_flatten (gap : Int) :
    ∀ (rest : List (ℕ × PMsg)) (prev : PMsg) (acc : List ℕ),
      (specGo gap prev acc rest).flatten = acc ++ rest.map (·.1)
  | [], prev, acc => by simp [specGo]
  | (i, m) :: rest, prev, acc => by
    rw [specGo]
    by_cases hb : m.channel ≠ prev.channel ∨ m.ts - prev.ts > gap
    · rw [if_pos hb]
      simp [specGo_flatten gap rest m [i]]
    · rw [if_neg hb]
      simp [specGo_flatten gap rest m (acc ++ [i])]

/-- The conversations emitted by the grouper cover each message index
exactly once: their concatenation is a permutation of `range n`. -/
theorem groupByConversation_flatten_perm (gap : Int) (msgs : List PMsg) :
    ((groupByConversation gap msgs).flatten).Perm (List.range msgs.length) := by
  rw [groupByConversation_eq_spec]
  unfold specGroupByConversation
  have hperm : (sortMsgs msgs).Perm msgs.enum := List.perm_insertionSort _ _
  cases h : sortMsgs msgs with
  | nil =>
    have : msgs.enum = [] := (h ▸ hperm).symm.eq_nil
    have : msgs = [] := by
      cases msgs with
      | nil => rfl
      | cons x l => simp [List.enum, List.enumFrom] at this
    simp [this]
  | cons p rest =>
    obtain ⟨i, m⟩ := p
    rw [specGo_flatten]
    have hperm' : ((i, m) :: rest).Perm msgs.enum := h ▸ hperm
    have hmap := hperm'.map (·.1)
    simpa [List.enum_map_fst] using hmap

/-- `[l.getD 0 d, ..., l.getD (n-1) d]` recovers `l` itself. -/
theorem map_getD_range (d : List ℕ) :
    ∀ (l : List (List ℕ)), (List.range l.length).map (fun j => l.getD j d) = l
  | [] => rfl
  | c :: l => by
    rw [List.length_cons, List.range_succ_eq_map, List.map_cons, List.map_map]
    refine congrArg (c :: ·) ?_
    have : ((fun j => (c :: l).getD j d) ∘ Nat.succ) = fun j => l.getD j d := by
      funext j; rfl
    rw [this, map_getD_range d l]

/-- Flattening per-topic concatenations equals concatenating along the
flattened bucket list. -/
theorem flatten_map_flatten (g : ℕ → List ℕ) :
    ∀ (L : List (List ℕ)),
      (L.map (fun c => (c.map g).flatten)).flatten = ((L.flatten).map g).flatten
  | [] => rfl
  | c :: L => by
    simp [flatten_map_flatten g L]

/-- The topics' message-index lists cover each message index exactly once,
given one label per conversation: their concatenation is a permutation of
`range n`. -/
theorem topicMessageIndices_flatten_perm (gap : Int) (msgs : List PMsg) (labels : List ℕ)
    (hlen : labels.length = (groupByConversation gap msgs).length) :
    ((topicMessageIndices labels (groupByConversation gap msgs)).flatten).Perm
      (List.range msgs.length) := by
  unfold topicMessageIndices
  rw [flatten_map_flatten]
  have hbucket := convIndicesByTopic_flatten_perm labels
  have hmap := hbucket.map (fun j => (groupByConversation gap msgs).getD j [])
  have hflat := hmap.flatten
  refine hflat.trans ?_
  rw [hlen, map_getD_range]
  exact groupByConversation_flatten_perm gap msgs

/-- If an element occurs exactly once in the concatenation, exactly one of
the chunks contains it. -/
theorem countP_mem_eq_one_of_count_flatten (i : ℕ) :
    ∀ (L : List (List ℕ)), (L.flatten).count i = 1 →
      L.countP (fun c => decide (i ∈ c)) = 1
  | [], h => by simp at h
  | c :: L, h => by
    rw [List.flatten_cons, List.count_append] at h
    rw [List.countP_cons]
    by_cases hc : i ∈ c
    · have hcpos : 0 < c.count i := List.count_pos_iff.mpr hc
      have hc1 : c.count i = 1 := by omega
      have hL0 : (L.flatten).count i = 0 := by omega
      have : L.countP (fun c => decide (i ∈ c)) = 0 := by
        rw [List.countP_eq_zero]
        intro d hd
        simp only [decide_eq_true_eq]
        intro hmem
        have : 0 < (L.flatten).count i :=
          List.count_pos_iff.mpr (List.mem_flatten.mpr ⟨d, hd, hmem⟩)
        omega
      simp [this, hc]
    · have hc0 : c.count i = 0 := List.count_eq_zero.mpr hc
      have hL1 : (L.flatten).count i = 1 := by omega
      simp [hc, countP_mem_eq_one_of_count_flatten i L hL1]

/-! ### Small-cluster filtering

Two implementations in the sources:
`HierarchicalClusteringService._filter_small_clusters` (mask assignment to
`min(valid_clusters)` followed by renumbering along
`sorted(np.unique(new_labels))`) and
`ClusteringService._filter_small_clusters` (renumbering along the sorted
valid cluster ids, with members of dissolved clusters appended to new
cluster `0`). -/

/-- `HierarchicalClusteringService._filter_small_clusters(labels, min_size,
n_messages)`.  `valid` is the set of labels whose group has at least
`min_size` members (as a sorted list); members of other groups are
reassigned to `min(valid_clusters)` and the surviving labels are renumbered
contiguously along their ascending order. -/
def filterSmallClusters (labels : List ℕ) (minSize : ℕ) (nMessages : ℕ) : List ℕ :=
  let valid := (uniqueSorted labels).filter (fun l => minSize ≤ labels.count l)
  if valid = [] then
    List.replicate nMessages 0
  else
    let minValid := listMin valid
    let newLabels := labels.map (fun l => if l ∈ valid then l else minValid)
    let uniqueNew := uniqueSorted newLabels
    newLabels.map (fun l => uniqueNew.indexOf l)

/-- `ClusteringService._filter_small_clusters` restricted to the labels it
returns: members of valid clusters get the rank of their cluster id among
the sorted valid ids (`old_to_new`), members of dissolved clusters get
label `0`. -/
def filterSmallClustersFlat (labels : List ℕ) (minSize : ℕ) : List ℕ :=
  let valid := (uniqueSorted labels).filter (fun l => minSize ≤ labels.count l)
  if valid = [] then
    List.replicate labels.length 0
  else
    labels.map (fun l => if l ∈ valid then valid.indexOf l else 0)

/-- The claim's description of min-size enforcement: groups smaller than
`min_size` are dissolved and their members reassigned to the surviving
group with the smallest remaining valid label; if zero groups survive all
items collapse into a single group labeled 0; surviving group ids are
renumbered contiguously from 0 in ascending order of the surviving
original labels. -/
def specFilterSmallClusters (labels : List ℕ) (minSize : ℕ) : List ℕ :=
  let sortedValid := (uniqueSorted labels).filter (fun l => minSize ≤ labels.count l)
  if sortedValid = [] then
    List.replicate labels.length 0
  else
    labels.map (fun l =>
      sortedValid.indexOf (if minSize ≤ labels.count l then l else listMin sortedValid))

theorem mem_uniqueSorted (a : ℕ) (l : List ℕ) : a ∈ uniqueSorted l ↔ a ∈ l := by
  unfold uniqueSorted
  rw [List.Perm.mem_iff (List.perm_insertionSort _ _)]
  exact mem_uniqueInOrder a l

theorem nodup_uniqueSorted (l : List ℕ) : (uniqueSorted l).Nodup :=
  (List.perm_insertionSort _ _).nodup_iff.mpr (nodup_uniqueInOrder l)

theorem sorted_uniqueSorted (l : List ℕ) : (uniqueSorted l).Sorted (· ≤ ·) :=
  List.sorted_insertionSort _ _

theorem listMin_mem : ∀ (l : List ℕ), l ≠ [] → listMin l ∈ l
  | [], h => absurd rfl h
  | [a], _ => by simp [listMin]
  | a :: b :: l, _ => by
    rw [listMin]
    rcases Nat.le_total a (listMin (b :: l)) with h | h
    · rw [min_eq_left h]; exact List.mem_cons_self a _
    · rw [min_eq_right h]
      exact List.mem_cons_of_mem a (listMin_mem (b :: l) (by simp))

theorem listMin_head_of_sorted : ∀ (l : List ℕ), l.Sorted (· ≤ ·) → l ≠ [] →
    listMin l = l.headD 0
  | [], _, h => absurd rfl h
  | [a], _, _ => rfl
  | a :: b :: l, hs, _ => by
    rw [listMin, List.headD_cons]
    have hmem := listMin_mem (b :: l) (by simp)
    have : a ≤ listMin (b :: l) :=
      (List.sorted_cons.mp hs).1 _ hmem
    exact min_eq_left this

/-- Membership in the sorted valid-label list is exactly the size test,
for labels that occur. -/
theorem mem_valid_iff (labels : List ℕ) (minSize : ℕ) (l : ℕ) (hl : l ∈ labels) :
    l ∈ (uniqueSorted labels).filter (fun x => minSize ≤ labels.count x)
      ↔ minSize ≤ labels.count l := by
  rw [List.mem_filter]
  simp [mem_uniqueSorted, hl]

theorem valid_sorted (labels : List ℕ) (minSize : ℕ) :
    ((uniqueSorted labels).filter (fun x => minSize ≤ labels.count x)).Sorted (· ≤ ·) :=
  (sorted_uniqueSorted labels).filter _

theorem valid_nodup (labels : List ℕ) (minSize : ℕ) :
    ((uniqueSorted labels).filter (fun x => minSize ≤ labels.count x)).Nodup :=
  (nodup_uniqueSorted labels).filter _

/-- After the mask reassignment, `sorted(np.unique(new_labels))` is exactly
the sorted valid-label list. -/
theorem uniqueSorted_reassign (labels : List ℕ) (minSize : ℕ)
    (hne : (uniqueSorted labels).filter (fun x => minSize ≤ labels.count x) ≠ []) :
    uniqueSorted (labels.map (fun l =>
        if l ∈ (uniqueSorted labels).filter (fun x => minSize ≤ labels.count x) then l
        else listMin ((uniqueSorted labels).filter (fun x => minSize ≤ labels.count x))))
      = (uniqueSorted labels).filter (fun x => minSize ≤ labels.count x) := by
  set valid := (uniqueSorted labels).filter (fun x => minSize ≤ labels.count x) with hv
  set newLabels := labels.map (fun l => if l ∈ valid then l else listMin valid) with hnl
  have hmem : ∀ x, x ∈ uniqueSorted newLabels ↔ x ∈ valid := by
    intro x
    rw [mem_uniqueSorted]
    constructor
    · intro hx
      rw [hnl] at hx
      obtain ⟨l, _, hval⟩ := List.mem_map.mp hx
      by_cases hc : l ∈ valid
      · rw [if_pos hc] at hval
        exact hval ▸ hc
      · rw [if_neg hc] at hval
        exact hval ▸ listMin_mem valid hne
    · intro hx
      have hxl : x ∈ labels := by
        rw [hv] at hx
        exact (mem_uniqueSorted x labels).mp (List.mem_of_mem_filter hx)
      rw [hnl]
      refine List.mem_map.mpr ⟨x, hxl, ?_⟩
      rw [if_pos hx]
  refine List.eq_of_perm_of_sorted ?_ (sorted_uniqueSorted _) (valid_sorted labels minSize)
  exact (List.perm_ext_iff_of_nodup (nodup_uniqueSorted _) (valid_nodup labels minSize)).mpr hmem

/-- The hierarchical filter agrees with the claim's two-pass description. -/
theorem filterSmallClusters_eq_spec (labels : List ℕ) (minSize : ℕ) :
    filterSmallClusters labels minSize labels.length = specFilterSmallClusters labels minSize := by
  unfold filterSmallClusters specFilterSmallClusters
  set valid := (uniqueSorted labels).filter (fun x => minSize ≤ labels.count x) with hv
  by_cases hne : valid = []
  · simp only [hne]
    rfl
  · simp only [if_neg hne]
    rw [uniqueSorted_reassign labels minSize hne, List.map_map]
    refine List.map_congr_left ?_
    intro l hl
    by_cases hc : minSize ≤ labels.count l
    · have : l ∈ valid := (mem_valid_iff labels minSize l hl).mpr hc
      simp [Function.comp, this, hc]
    · have : l ∉ valid := fun h => hc ((mem_valid_iff labels minSize l hl).mp h)
      simp [Function.comp, this, hc]

/-- The flat filter also agrees with the claim's description: label `0` is
the rank of the smallest surviving label. -/
theorem filterSmallClustersFlat_eq_spec (labels : List ℕ) (minSize : ℕ) :
    filterSmallClustersFlat labels minSize = specFilterSmallClusters labels minSize := by
  unfold filterSmallClustersFlat specFilterSmallClusters
  set valid := (uniqueSorted labels).filter (fun x => minSize ≤ labels.count x) with hv
  by_cases hne : valid = []
  · simp only [hne]
    rfl
  · simp only [if_neg hne]
    refine List.map_congr_left ?_
    intro l hl
    have hmin : listMin valid = valid.headD 0 :=
      listMin_head_of_sorted valid (valid_sorted labels minSize) hne
    by_cases hc : minSize ≤ labels.count l
    · have : l ∈ valid := (mem_valid_iff labels minSize l hl).mpr hc
      simp [this, hc]
    · have : l ∉ valid := fun h => hc ((mem_valid_iff labels minSize l hl).mp h)
      simp only [if_neg this, if_neg hc, hmin]
      cases hval : valid with
      | nil => exact absurd hval hne
      | cons v rest => simp

/-- Min-size guarantee of the filter: either every output group has at
least `min_size` members, or the output is a single group (everything
labeled `0`). -/
theorem filterSmallClusters_minsize (labels : List ℕ) (minSize : ℕ) :
    (∀ t ∈ filterSmallClusters labels minSize labels.length,
        minSize ≤ (filterSmallClusters labels minSize labels.length).count t)
      ∨ filterSmallClusters labels minSize labels.length
          = List.replicate labels.length 0 := by
  rw [filterSmallClusters_eq_spec]
  unfold specFilterSmallClusters
  set valid := (uniqueSorted labels).filter (fun x => minSize ≤ labels.count x) with hv
  by_cases hne : valid = []
  · simp only [hne]
    exact Or.inr rfl
  · simp only [if_neg hne]
    left
    intro t ht
    set f := fun l : ℕ =>
      valid.indexOf (if minSize ≤ labels.count l then l else listMin valid) with hf
    obtain ⟨l, hl, hfl⟩ := List.mem_map.mp ht
    set v := if minSize ≤ labels.count l then l else listMin valid with hvdef
    have hvval : v ∈ valid := by
      rw [hvdef]
      by_cases hc : minSize ≤ labels.count l
      · rw [if_pos hc]; exact (mem_valid_iff labels minSize l hl).mpr hc
      · rw [if_neg hc]; exact listMin_mem valid hne
    have hvcount : minSize ≤ labels.count v := by
      have := List.of_mem_filter hvval
      simpa using this
    have hfv : f v = t := by
      rw [hf]
      simp only
      rw [if_pos hvcount]
      exact hfl
    calc minSize ≤ labels.count v := hvcount
      _ = labels.countP (fun x => x == v) := List.count_eq_countP v labels
      _ ≤ labels.countP (fun x => f x == t) := by
          refine List.countP_mono_left ?_
          intro x _ hx
          have hxv : x = v := by simpa using hx
          simp [hxv, hfv]
      _ = (labels.map f).count t := by
          rw [List.count_eq_countP, List.countP_map]
          rfl

/-! ### Ward agglomeration (model of the external agglomerative clusterer)

`_cluster_level` calls `sklearn.AgglomerativeClustering(n_clusters=None,
distance_threshold=threshold, linkage='ward', metric='euclidean')` directly
on the embeddings, and `_create_topic_clusters` falls back to
`AgglomerativeClustering(n_clusters=max_clusters, linkage='ward')`.  Ward
agglomeration is modelled by the Lance–Williams recurrence on squared
linkage distances (all arithmetic rational); a merge at linkage distance
`d` is performed under a distance threshold `t` iff `d < t`, i.e. iff
`d² < t²` (sklearn refuses merges at distance `≥ t`; Ward distances are
monotone, so stopping early equals cutting the finished tree).  Ties in
the minimal pair are broken by the first pair in row-major order (the
library's tie order is unspecified; the concrete inputs used below have
no ties that affect the resulting partition). -/

structure WardCluster where
  members : List ℕ
  size : ℚ
deriving DecidableEq, Repr

/-- Entry `(i, j)` of a squared-distance matrix stored as rows. -/
def matEntry (D : List (List ℚ)) (i j : ℕ) : ℚ := (D.getD i []).getD j 0

/-- The pair `i < j` of clusters with minimal squared linkage distance
(first such pair in row-major order). -/
def minPair (D : List (List ℚ)) : Option (ℕ × ℕ × ℚ) :=
  let n := D.length
  let pairs := (List.range n).flatMap (fun i =>
    ((List.range n).filter (fun j => i < j)).map (fun j => (i, j)))
  pairs.foldl (fun best p =>
    let d := matEntry D p.1 p.2
    match best with
    | none => some (p.1, p.2, d)
    | some (bi, bj, bd) => if d < bd then some (p.1, p.2, d) else some (bi, bj, bd))
    none

/-- The Lance–Williams update for Ward linkage on squared distances:
the squared distance from the merge of `i` and `j` to `k`. -/
def wardMergeDist (si sj sk dij dik djk : ℚ) : ℚ :=
  ((si + sk) * dik + (sj + sk) * djk - sk * dij) / (si + sj + sk)

/-- Merge clusters `i` and `j`: the merged cluster is appended after the
remaining ones and the squared-distance matrix is updated by the Ward
recurrence. -/
def mergeStep (cs : List WardCluster) (D : List (List ℚ)) (i j : ℕ) :
    List WardCluster × List (List ℚ) :=
  let ci := cs.getD i ⟨[], 0⟩
  let cj := cs.getD j ⟨[], 0⟩
  let dij := matEntry D i j
  let keep := (List.range cs.length).filter (fun k => k ≠ i ∧ k ≠ j)
  let newCs := keep.map (fun k => cs.getD k ⟨[], 0⟩)
      ++ [⟨ci.members ++ cj.members, ci.size + cj.size⟩]
  let newRow := keep.map (fun k =>
    wardMergeDist ci.size cj.size (cs.getD k ⟨[], 0⟩).size dij (matEntry D i k) (matEntry D j k))
  let newD := keep.enum.map (fun p =>
      keep.map (fun k' => matEntry D p.2 k') ++ [newRow.getD p.1 0])
    ++ [newRow ++ [0]]
  (newCs, newD)

/-- One agglomeration step under a squared distance threshold `t2`:
merge the closest pair if its squared linkage distance is `< t2`. -/
def wardStep (t2 : ℚ) (cs : List WardCluster) (D : List (List ℚ)) :
    Option (List WardCluster × List (List ℚ)) :=
  match minPair D with
  | none => none
  | some (i, j, d) => if d < t2 then some (mergeStep cs D i j) else none

/-- Threshold-cut Ward agglomeration (fuel-bounded; `fuel = n` suffices
since every step removes a cluster). -/
def wardLoop (t2 : ℚ) : ℕ → List WardCluster × List (List ℚ) → List WardCluster
  | 0, (cs, _) => cs
  | fuel + 1, (cs, D) =>
    match wardStep t2 cs D with
    | none => cs
    | some st => wardLoop t2 fuel st

/-- Count-cut Ward agglomeration (`AgglomerativeClustering(n_clusters=K)`):
merge closest pairs until `K` clusters remain. -/
def wardLoopCount (K : ℕ) : ℕ → List WardCluster × List (List ℚ) → List WardCluster
  | 0, (cs, _) => cs
  | fuel + 1, (cs, D) =>
    if cs.length ≤ K then cs
    else
      match minPair D with
      | none => cs
      | some (i, j, _) => wardLoopCount K fuel (mergeStep cs D i j)

/-- Initial state of the source's topic-level agglomeration: singleton
clusters and pairwise squared Euclidean distances of the embeddings
(`metric='euclidean'`, `linkage='ward'` on the raw vectors). -/
def wardInitEuclid (embs : List (List ℚ)) : List WardCluster × List (List ℚ) :=
  ((List.range embs.length).map (fun i => ⟨[i], 1⟩),
   embs.map (fun a => embs.map (fun b => euclidSq a b)))

/-- Modelled from the spec: the Distance/Linkage Engine of spec §4.2, whose
pairwise distances are the cosine distances `1 − dot(a, b)` (as in
`ClusteringService.cluster_messages`); Ward agglomeration then treats these
values as distances, i.e. runs on their squares. -/
def wardInitCosine (embs : List (List ℚ)) : List WardCluster × List (List ℚ) :=
  ((List.range embs.length).map (fun i => ⟨[i], 1⟩),
   embs.map (fun a => embs.map (fun b => (1 - dotQ a b) * (1 - dotQ a b))))

/-- One label per original item: the position of the final cluster that
contains it. -/
def labelsOfClusters (n : ℕ) (cs : List WardCluster) : List ℕ :=
  (List.range n).map (fun i => cs.findIdx (fun c => i ∈ c.members))

/-- `_cluster_level(embeddings, threshold, min_size)`: threshold-cut Ward
agglomeration on the raw embeddings followed by small-cluster filtering. -/
def clusterLevel (embs : List (List ℚ)) (threshold : ℚ) (minSize : ℕ) : List ℕ :=
  let n := embs.length
  if n < 2 then List.replicate n 0
  else
    filterSmallClusters
      (labelsOfClusters n (wardLoop (threshold * threshold) n (wardInitEuclid embs)))
      minSize n

/-- `_create_topic_clusters(conversation_embeddings, n_conversations)`:
threshold-cut topic labels, falling back to a count-cut with
`max_clusters` clusters (with no small-cluster filtering) when the
threshold cut produced more than `max_clusters` labels. -/
def createTopicClusters (mainThreshold : ℚ) (minMain maxC : ℕ)
    (convEmbs : List (List ℚ)) : List ℕ :=
  if convEmbs.length < 2 then [0]
  else
    let labels := clusterLevel convEmbs mainThreshold minMain
    if maxC < (uniqueSorted labels).length then
      labelsOfClusters convEmbs.length
        (wardLoopCount maxC convEmbs.length (wardInitEuclid convEmbs))
    else labels

/-- Modelled from the spec: topic clustering as the claim describes it —
the same cut and filtering, but with the Distance/Linkage Engine's cosine
distances `1 − dot(a, b)` determining the agglomeration. -/
def specTopicClustersCosine (mainThreshold : ℚ) (minMain maxC : ℕ)
    (convEmbs : List (List ℚ)) : List ℕ :=
  if convEmbs.length < 2 then [0]
  else
    let n := convEmbs.length
    let labels := filterSmallClusters
      (labelsOfClusters n (wardLoop (mainThreshold * mainThreshold) n (wardInitCosine convEmbs)))
      minMain n
    if maxC < (uniqueSorted labels).length then
      labelsOfClusters n (wardLoopCount maxC n (wardInitCosine convEmbs))
    else labels

/-- `cluster_messages`'s distance matrix: `1 - np.dot(embeddings,
embeddings.T)`. -/
def cosineDistances (embs : List (List ℚ)) : List (List ℚ) :=
  embs.map (fun a => embs.map (fun b => 1 - dotQ a b))

/-- `np.fill_diagonal(distances, 0)`. -/
def fillDiagonalZero (M : List (List ℚ)) : List (List ℚ) :=
  M.enum.map (fun p => p.2.enum.map (fun q => if p.1 = q.1 then 0 else q.2))

/-- Polarization: the squared Euclidean distance in terms of squared norms
and the dot product. -/
theorem euclidSq_eq (a : List ℚ) :
    ∀ (b : List ℚ), a.length = b.length →
      euclidSq a b = sumSqQ a + sumSqQ b - 2 * dotQ a b := by
  induction a with
  | nil =>
    intro b h
    cases b with
    | nil => simp [euclidSq, sumSqQ, dotQ]
    | cons y ys => simp at h
  | cons x xs ih =>
    intro b h
    cases b with
    | nil => simp at h
    | cons y ys =>
      have hx : euclidSq (x :: xs) (y :: ys) = (x - y) * (x - y) + euclidSq xs ys := by
        simp [euclidSq, sumSqQ]
      have hs : sumSqQ (x :: xs) = x * x + sumSqQ xs := by simp [sumSqQ]
      have hs' : sumSqQ (y :: ys) = y * y + sumSqQ ys := by simp [sumSqQ]
      have hd : dotQ (x :: xs) (y :: ys) = x * y + dotQ xs ys := by simp [dotQ]
      rw [hx, hs, hs', hd, ih ys (by simpa using h)]
      ring

/-- The diagonal of the `cluster_messages` distance matrix is forced to
exactly `0` by `np.fill_diagonal`. -/
theorem fillDiagonalZero_diag (M : List (List ℚ)) (i : ℕ) :
    matEntry (fillDiagonalZero M) i i = 0 := by
  unfold matEntry fillDiagonalZero
  simp only [List.getD_eq_getElem?_getD, List.getElem?_map, List.getElem?_enum]
  cases hM : M[i]? with
  | none => simp
  | some row =>
    simp only [hM, Option.map_some', Option.getD_some, List.getElem?_map,
      List.getElem?_enum]
    cases hr : row[i]? with
    | none => simp
    | some x => simp

/-- The filter never drops an item: the label list keeps its length. -/
theorem filterSmallClusters_length (labels : List ℕ) (minSize : ℕ) :
    (filterSmallClusters labels minSize labels.length).length = labels.length := by
  rw [filterSmallClusters_eq_spec]
  unfold specFilterSmallClusters
  by_cases h : (uniqueSorted labels).filter (fun x => minSize ≤ labels.count x) = []
  · simp only [h, if_pos rfl]
    exact List.length_replicate _ _
  · simp only [if_neg h]
    exact List.length_map _ _

/-- C3: for every message list with parsed timestamps and any time-gap
threshold (the source fixes `time_gap_threshold = 3600` seconds), the
conversation grouper stably sorts the messages by `(channel, timestamp)`
— the sorted list is ordered by channel, then timestamp, then original
position, and is a permutation of the enumerated input — and scans it in
order, starting a new conversation exactly when the channel differs from
the previous message's channel or the gap to the previous message's
timestamp strictly exceeds the threshold; otherwise the current
conversation is extended.  The output lists each conversation's member
indices in scan order, conversation index = position. -/
theorem c3_conversation_grouper (gap : Int) (msgs : List PMsg) :
    groupByConversation gap msgs = specGroupByConversation gap msgs
    ∧ (sortMsgs msgs).Sorted stableLE
    ∧ (sortMsgs msgs).Perm msgs.enum :=
  ⟨groupByConversation_eq_spec gap msgs,
   List.sorted_insertionSort stableLE msgs.enum,
   List.perm_insertionSort stableLE msgs.enum⟩

/-- C2: every message index lands in exactly one conversation (the
conversations' members concatenate to a permutation of `range n`, and
exactly one conversation contains each index), conversation sizes sum to
`n`, the topic filter drops no conversation label, and — for any one
topic label per conversation — every message index lands in exactly one
topic. -/
theorem c2_coverage (gap : Int) (msgs : List PMsg) (labels : List ℕ) (minSize : ℕ)
    (hlen : labels.length = (groupByConversation gap msgs).length) :
    ((groupByConversation gap msgs).flatten).Perm (List.range msgs.length)
    ∧ ((groupByConversation gap msgs).map List.length).sum = msgs.length
    ∧ (∀ i < msgs.length,
        (groupByConversation gap msgs).countP (fun c => decide (i ∈ c)) = 1)
    ∧ (filterSmallClusters labels minSize labels.length).length = labels.length
    ∧ ((topicMessageIndices labels (groupByConversation gap msgs)).flatten).Perm
        (List.range msgs.length)
    ∧ (∀ i < msgs.length,
        (topicMessageIndices labels (groupByConversation gap msgs)).countP
          (fun c => decide (i ∈ c)) = 1) := by
  have hconv := groupByConversation_flatten_perm gap msgs
  have htop := topicMessageIndices_flatten_perm gap msgs labels hlen
  refine ⟨hconv, ?_, ?_, filterSmallClusters_length labels minSize, htop, ?_⟩
  · have hl := hconv.length_eq
    rw [List.length_flatten, List.length_range] at hl
    exact hl
  · intro i hi
    refine countP_mem_eq_one_of_count_flatten i _ ?_
    rw [hconv.count_eq]
    exact List.count_eq_one_of_mem (List.nodup_range _) (List.mem_range.mpr hi)
  · intro i hi
    refine countP_mem_eq_one_of_count_flatten i _ ?_
    rw [htop.count_eq]
    exact List.count_eq_one_of_mem (List.nodup_range _) (List.mem_range.mpr hi)

/-- Witness for C2 at a concrete run: two same-channel messages form one
conversation, labeled with topic 0. -/
theorem c2_coverage_witness :
    (([0] : List ℕ).length
        = (groupByConversation 3600 [⟨"a", 0⟩, ⟨"a", 10⟩]).length)
    ∧ (((groupByConversation 3600 [⟨"a", 0⟩, ⟨"a", 10⟩]).flatten).Perm
          (List.range ([(⟨"a", 0⟩ : PMsg), ⟨"a", 10⟩]).length)
        ∧ ((groupByConversation 3600 [⟨"a", 0⟩, ⟨"a", 10⟩]).map List.length).sum
            = ([(⟨"a", 0⟩ : PMsg), ⟨"a", 10⟩]).length
        ∧ (∀ i < ([(⟨"a", 0⟩ : PMsg), ⟨"a", 10⟩]).length,
            (groupByConversation 3600 [⟨"a", 0⟩, ⟨"a", 10⟩]).countP
              (fun c => decide (i ∈ c)) = 1)
        ∧ (filterSmallClusters [0] 2 ([0] : List ℕ).length).length = ([0] : List ℕ).length
        ∧ ((topicMessageIndices [0] (groupByConversation 3600 [⟨"a", 0⟩, ⟨"a", 10⟩])).flatten).Perm
            (List.range ([(⟨"a", 0⟩ : PMsg), ⟨"a", 10⟩]).length)
        ∧ (∀ i < ([(⟨"a", 0⟩ : PMsg), ⟨"a", 10⟩]).length,
            (topicMessageIndices [0] (groupByConversation 3600 [⟨"a", 0⟩, ⟨"a", 10⟩])).countP
              (fun c => decide (i ∈ c)) = 1)) :=
  ⟨by decide, c2_coverage 3600 [⟨"a", 0⟩, ⟨"a", 10⟩] [0] 2 (by decide)⟩

/-- C1 counterexample: a 4-message run (two channels, two messages each,
ten seconds apart) emits two conversations of two messages each — both
below `min_sub_cluster_size = 3` although the corpus of 4 messages is not
smaller than that minimum, and more than one group exists.  No min-size
enforcement is applied to conversations. -/
theorem c1_counterexample :
    ¬ ((∀ c ∈ groupByConversation timeGapThreshold
          [⟨"a", 0⟩, ⟨"a", 10⟩, ⟨"b", 0⟩, ⟨"b", 10⟩],
        minSubClusterSize ≤ c.length)
      ∨ ([(⟨"a", 0⟩ : PMsg), ⟨"a", 10⟩, ⟨"b", 0⟩, ⟨"b", 10⟩].length < minSubClusterSize
          ∧ (groupByConversation timeGapThreshold
              [⟨"a", 0⟩, ⟨"a", 10⟩, ⟨"b", 0⟩, ⟨"b", 10⟩]).length = 1)) := by
  decide

/-- C1 amended: the min-size guarantee holds only for topics produced on
the threshold path: after `_filter_small_clusters`, either every topic
label covers at least `min_size` conversations, or every conversation
carries the single topic label 0.  (Conversations themselves and topics
from the `max_clusters` fallback cut are not size-filtered.) -/
theorem c1_topic_minsize (labels : List ℕ) (minSize : ℕ) :
    (∀ t ∈ filterSmallClusters labels minSize labels.length,
        minSize ≤ (filterSmallClusters labels minSize labels.length).count t)
      ∨ filterSmallClusters labels minSize labels.length
          = List.replicate labels.length 0 :=
  filterSmallClusters_minsize labels minSize

/-- C5: both `_filter_small_clusters` implementations realize the claimed
policy: groups smaller than `min_size` are dissolved and their members
reassigned to the surviving group with the smallest remaining valid label;
when no group is valid everything collapses into the single group 0 (and
no error is raised — the function is total); surviving groups are
renumbered contiguously from 0 in ascending order of the surviving
original labels. -/
theorem c5_filter_small_clusters (labels : List ℕ) (minSize : ℕ) :
    filterSmallClusters labels minSize labels.length
        = specFilterSmallClusters labels minSize
    ∧ filterSmallClustersFlat labels minSize = specFilterSmallClusters labels minSize :=
  ⟨filterSmallClusters_eq_spec labels minSize,
   filterSmallClustersFlat_eq_spec labels minSize⟩

/-- C4 counterexample: ten conversation centroids in two bundles of five
identical unit vectors with cross-bundle dot product 1/2, clustered with
the service's default parameters (threshold 1.2, `min_main_cluster_size`
5, `max_clusters` 15).  The code (Ward on the centroids' Euclidean
distances) emits two topics; the same cut driven by the Distance/Linkage
Engine's cosine distances `1 − dot` would emit one. -/
theorem c4_counterexample :
    (uniqueSorted (createTopicClusters mainClusterThreshold minMainClusterSize maxClusters
        [[1,0,0,0], [1,0,0,0], [1,0,0,0], [1,0,0,0], [1,0,0,0],
         [1/2,1/2,1/2,1/2], [1/2,1/2,1/2,1/2], [1/2,1/2,1/2,1/2],
         [1/2,1/2,1/2,1/2], [1/2,1/2,1/2,1/2]])).length = 2
    ∧ (uniqueSorted (specTopicClustersCosine mainClusterThreshold minMainClusterSize maxClusters
        [[1,0,0,0], [1,0,0,0], [1,0,0,0], [1,0,0,0], [1,0,0,0],
         [1/2,1/2,1/2,1/2], [1/2,1/2,1/2,1/2], [1/2,1/2,1/2,1/2],
         [1/2,1/2,1/2,1/2], [1/2,1/2,1/2,1/2]])).length = 1 := by
  decide

/-- C4 amended: the topic-level agglomeration runs Ward linkage on the
Euclidean metric directly over the conversation centroids (a separate
code path from the Distance/Linkage Engine); for unit-norm centroids the
squared Euclidean distance equals twice the cosine distance `1 − dot`,
so the threshold cut at 1.2 is applied to Euclidean, not cosine,
distances.  The `1 − dot` matrix with its diagonal forced to exactly 0 is
computed only by `cluster_messages`. -/
theorem c4_distances (a b : List ℚ) (hlen : a.length = b.length)
    (ha : sumSqQ a = 1) (hb : sumSqQ b = 1) (M : List (List ℚ)) (i : ℕ) :
    euclidSq a b = 2 * (1 - dotQ a b)
    ∧ matEntry (fillDiagonalZero (cosineDistances M)) i i = 0 := by
  refine ⟨?_, fillDiagonalZero_diag _ i⟩
  rw [euclidSq_eq a b hlen, ha, hb]
  ring

/-- Witness for C4's amended statement at concrete unit vectors. -/
theorem c4_distances_witness :
    (([1, 0] : List ℚ).length = ([0, 1] : List ℚ).length)
    ∧ sumSqQ [1, 0] = 1 ∧ sumSqQ [0, 1] = 1
    ∧ (euclidSq [1, 0] [0, 1] = 2 * (1 - dotQ [1, 0] [0, 1])
        ∧ matEntry (fillDiagonalZero (cosineDistances [[1, 0], [0, 1]])) 0 0 = 0) :=
  ⟨by decide, by decide, by decide,
   c4_distances [1, 0] [0, 1] (by decide) (by decide) (by decide) [[1, 0], [0, 1]] 0⟩

/-! ### Representative message selection (`get_representative_messages`)

`np.argsort(similarities)` is modelled as the stable ascending sort of the
positions by similarity (ties keep index order); the source then takes
`[-top_k:][::-1]` of it. -/

/-- Stable ascending comparison of positions by similarity value. -/
def simAscLE (s : List ℚ) (i j : ℕ) : Prop :=
  s.getD i 0 < s.getD j 0 ∨ (s.getD i 0 = s.getD j 0 ∧ i ≤ j)

instance (s : List ℚ) : DecidableRel (simAscLE s) := fun i j => by
  unfold simAscLE; infer_instance

instance (s : List ℚ) : IsTotal ℕ (simAscLE s) where
  total i j := by
    unfold simAscLE
    rcases lt_trichotomy (s.getD i 0) (s.getD j 0) with h | h | h
    · exact Or.inl (Or.inl h)
    · rcases Nat.le_total i j with h' | h'
      · exact Or.inl (Or.inr ⟨h, h'⟩)
      · exact Or.inr (Or.inr ⟨h.symm, h'⟩)
    · exact Or.inr (Or.inl h)

instance (s : List ℚ) : IsTrans ℕ (simAscLE s) where
  trans i j k hij hjk := by
    unfold simAscLE at *
    rcases hij with h | ⟨he, hi⟩
    · rcases hjk with h' | ⟨he', _⟩
      · exact Or.inl (h.trans h')
      · exact Or.inl (he' ▸ h)
    · rcases hjk with h' | ⟨he', hi'⟩
      · exact Or.inl (he ▸ h')
      · exact Or.inr ⟨he.trans he', hi.trans hi'⟩

/-- `np.argsort` (stable model): positions sorted ascending by value. -/
def argsort (s : List ℚ) : List ℕ :=
  (List.range s.length).insertionSort (simAscLE s)

/-- `ClusteringService.get_representative_messages(embeddings,
cluster_messages, centroid, top_k)`. -/
def getRepresentativeMessages (embs : List (List ℚ)) (clusterMessages : List ℕ)
    (centroid : List ℚ) (topK : ℕ) : List ℕ :=
  if clusterMessages.length ≤ topK then clusterMessages
  else
    let sims := clusterMessages.map (fun i => dotQ (embs.getD i []) centroid)
    let order := argsort sims
    ((order.drop (order.length - topK)).reverse).map (fun j => clusterMessages.getD j 0)

/-- Descending comparison with ties broken by ascending original index:
the claim's selection order. -/
def simDescTieAsc (s : List ℚ) (i j : ℕ) : Prop :=
  s.getD j 0 < s.getD i 0 ∨ (s.getD i 0 = s.getD j 0 ∧ i ≤ j)

instance (s : List ℚ) : DecidableRel (simDescTieAsc s) := fun i j => by
  unfold simDescTieAsc; infer_instance

/-- The claim's rule: the `top_k` members with highest similarity, ties
broken by original index order. -/
def specRepClaim (embs : List (List ℚ)) (clusterMessages : List ℕ)
    (centroid : List ℚ) (topK : ℕ) : List ℕ :=
  if clusterMessages.length ≤ topK then clusterMessages
  else
    let sims := clusterMessages.map (fun i => dotQ (embs.getD i []) centroid)
    (((List.range sims.length).insertionSort (simDescTieAsc sims)).take topK).map
      (fun j => clusterMessages.getD j 0)

/-- Descending comparison with ties broken by descending original index:
what the source's `argsort`/`[-top_k:][::-1]` combination realizes. -/
def simDescLE (s : List ℚ) (i j : ℕ) : Prop :=
  s.getD j 0 < s.getD i 0 ∨ (s.getD i 0 = s.getD j 0 ∧ j ≤ i)

instance (s : List ℚ) : DecidableRel (simDescLE s) := fun i j => by
  unfold simDescLE; infer_instance

instance (s : List ℚ) : IsTotal ℕ (simDescLE s) where
  total i j := by
    unfold simDescLE
    rcases lt_trichotomy (s.getD i 0) (s.getD j 0) with h | h | h
    · exact Or.inr (Or.inl h)
    · rcases Nat.le_total i j with h' | h'
      · exact Or.inr (Or.inr ⟨h.symm, h'⟩)
      · exact Or.inl (Or.inr ⟨h, h'⟩)
    · exact Or.inl (Or.inl h)

instance (s : List ℚ) : IsTrans ℕ (simDescLE s) where
  trans i j k hij hjk := by
    unfold simDescLE at *
    rcases hij with h | ⟨he, hi⟩
    · rcases hjk with h' | ⟨he', _⟩
      · exact Or.inl (h'.trans h)
      · exact Or.inl (he' ▸ h)
    · rcases hjk with h' | ⟨he', hi'⟩
      · exact Or.inl (by rw [he]; exact h')
      · exact Or.inr ⟨he.trans he', hi'.trans hi⟩

instance (s : List ℚ) : IsAntisymm ℕ (simDescLE s) where
  antisymm i j hij hji := by
    unfold simDescLE at *
    rcases hij with h | ⟨he, hi⟩
    · rcases hji with h' | ⟨he', _⟩
      · exact absurd (h.trans h') (lt_irrefl _)
      · exact absurd h (he' ▸ lt_irrefl _)
    · rcases hji with h' | ⟨_, hi'⟩
      · exact absurd h' (he ▸ lt_irrefl _)
      · exact Nat.le_antisymm hi' hi

/-- The amended rule: the `top_k` members with highest similarity, ties
broken by *descending* original index (both at the selection boundary and
in the output order). -/
def specRepAmended (embs : List (List ℚ)) (clusterMessages : List ℕ)
    (centroid : List ℚ) (topK : ℕ) : List ℕ :=
  if clusterMessages.length ≤ topK then clusterMessages
  else
    let sims := clusterMessages.map (fun i => dotQ (embs.getD i []) centroid)
    (((List.range sims.length).insertionSort (simDescLE sims)).take topK).map
      (fun j => clusterMessages.getD j 0)

/-- Reversing the stable ascending argsort yields exactly the descending
sort with ties in descending index order. -/
theorem argsort_reverse (s : List ℚ) :
    (argsort s).reverse = (List.range s.length).insertionSort (simDescLE s) := by
  refine List.eq_of_perm_of_sorted ?_ ?_ (List.sorted_insertionSort _ _)
  · exact ((List.reverse_perm _).trans (List.perm_insertionSort _ _)).trans
      (List.perm_insertionSort _ _).symm
  · have hs : (argsort s).Sorted (simAscLE s) := List.sorted_insertionSort _ _
    rw [List.Sorted, List.pairwise_reverse]
    refine hs.imp ?_
    intro i j hij
    rcases hij with h | ⟨he, hi⟩
    · exact Or.inl h
    · exact Or.inr ⟨he.symm, hi⟩

/-- C6 counterexample: two members with identical embeddings (equal
similarity to the centroid) and `top_k = 1`.  The source's
`argsort[-top_k:][::-1]` selects the member with the *larger* original
index, not the smaller one required by the claim's tie-breaking rule. -/
theorem c6_counterexample :
    getRepresentativeMessages [[1], [1]] [0, 1] [1] 1 = [1]
    ∧ specRepClaim [[1], [1]] [0, 1] [1] 1 = [0]
    ∧ getRepresentativeMessages [[1], [1]] [0, 1] [1] 1
        ≠ specRepClaim [[1], [1]] [0, 1] [1] 1 := by
  decide

/-- C6 amended: the selector returns the `top_k` members with highest dot
similarity to the centroid, with ties broken by *descending* original
index (modelling `np.argsort` as a stable sort); when the group size is at
most `top_k` the member list is returned unchanged. -/
theorem c6_representatives (embs : List (List ℚ)) (clusterMessages : List ℕ)
    (centroid : List ℚ) (topK : ℕ) :
    getRepresentativeMessages embs clusterMessages centroid topK
      = specRepAmended embs clusterMessages centroid topK := by
  unfold getRepresentativeMessages specRepAmended
  by_cases h : clusterMessages.length ≤ topK
  · rw [if_pos h, if_pos h]
  · rw [if_neg h, if_neg h]
    simp only
    rw [List.reverse_drop, argsort_reverse]
    have hlen : (argsort (clusterMessages.map (fun i => dotQ (embs.getD i []) centroid))).length
        = clusterMessages.length := by
      unfold argsort
      rw [List.length_insertionSort, List.length_range, List.length_map]
    have hk : (argsort (clusterMessages.map (fun i => dotQ (embs.getD i []) centroid))).length
        - ((argsort (clusterMessages.map (fun i => dotQ (embs.getD i []) centroid))).length - topK)
        = topK := by
      rw [hlen]; omega
    rw [hk]

/-! ### Centroid normalization (`create_hierarchy`, steps 2 and 4)

Each conversation centroid is `np.mean(embeddings[msg_indices], axis=0)`
divided by its `np.linalg.norm`; each topic centroid is computed by the
same two lines over the topic's message indices.  Norms need square
roots, so this section models the vectors over `ℝ`. -/

noncomputable section

/-- Sum of squares of a real vector. -/
def sumSqR (v : List ℝ) : ℝ := (v.map (fun x => x * x)).sum

/-- `np.linalg.norm(v)`. -/
def normR (v : List ℝ) : ℝ := Real.sqrt (sumSqR v)

/-- Componentwise sum of a list of vectors. -/
def sumVecs : List (List ℝ) → List ℝ
  | [] => []
  | [v] => v
  | v :: rest => List.zipWith (· + ·) v (sumVecs rest)

/-- `np.mean(vectors, axis=0)`. -/
def meanVec (vs : List (List ℝ)) : List ℝ :=
  (sumVecs vs).map (· / (vs.length : ℝ))

/-- `v / np.linalg.norm(v)`. -/
def normalizeVec (v : List ℝ) : List ℝ := v.map (· / normR v)

/-- A centroid as computed by `create_hierarchy`: normalized mean of the
member embeddings. -/
def centroid (vs : List (List ℝ)) : List ℝ := normalizeVec (meanVec vs)

end

theorem sumSqR_nonneg (v : List ℝ) : 0 ≤ sumSqR v := by
  refine List.sum_nonneg ?_
  intro x hx
  obtain ⟨y, _, rfl⟩ := List.mem_map.mp hx
  exact mul_self_nonneg y

/-- Dividing a vector by `c` divides its sum of squares by `c²`. -/
theorem sumSqR_div (v : List ℝ) (c : ℝ) :
    sumSqR (v.map (· / c)) = sumSqR v / (c * c) := by
  unfold sumSqR
  rw [List.map_map]
  induction v with
  | nil => simp
  | cons x xs ih =>
    simp only [List.map_cons, List.sum_cons, ih]
    rw [add_div]
    congr 1
    simp only [Function.comp]
    rw [div_mul_div_comm]

/-- Normalizing any vector of nonzero norm yields a unit-norm vector. -/
theorem normR_normalizeVec (v : List ℝ) (h : normR v ≠ 0) :
    normR (normalizeVec v) = 1 := by
  have hS : sumSqR v ≠ 0 := by
    intro h0
    refine h ?_
    show Real.sqrt (sumSqR v) = 0
    rw [h0, Real.sqrt_zero]
  have key : sumSqR (v.map (· / normR v)) = 1 := by
    rw [sumSqR_div]
    rw [show normR v * normR v = sumSqR v from Real.mul_self_sqrt (sumSqR_nonneg v)]
    exact div_self hS
  show Real.sqrt (sumSqR (v.map (· / normR v))) = 1
  rw [key, Real.sqrt_one]

/-- C7: every centroid computed by a run — the mean of the member message
embeddings divided by that mean's norm, at both the conversation and the
topic level — has unit L2 norm, provided the member embeddings are
unit-norm vectors whose mean is nonzero. -/
theorem c7_centroid_unit_norm (vs : List (List ℝ))
    (_hunit : ∀ v ∈ vs, normR v = 1) (hmean : normR (meanVec vs) ≠ 0) :
    normR (centroid vs) = 1 :=
  normR_normalizeVec (meanVec vs) hmean

/-- Witness for C7 at the one-member group `[[1]]`. -/
theorem c7_centroid_unit_norm_witness :
    (∀ v ∈ [[(1 : ℝ)]], normR v = 1) ∧ normR (meanVec [[(1 : ℝ)]]) ≠ 0
    ∧ normR (centroid [[(1 : ℝ)]]) = 1 := by
  have h1 : normR [(1 : ℝ)] = 1 := by
    simp [normR, sumSqR, Real.sqrt_one]
  have hm : meanVec [[(1 : ℝ)]] = [(1 : ℝ)] := by
    simp [meanVec, sumVecs]
  have hunit : ∀ v ∈ [[(1 : ℝ)]], normR v = 1 := by
    intro v hv
    rw [List.mem_singleton.mp hv]
    exact h1
  have hmean : normR (meanVec [[(1 : ℝ)]]) ≠ 0 := by
    rw [hm, h1]
    exact one_ne_zero
  exact ⟨hunit, hmean, c7_centroid_unit_norm [[(1 : ℝ)]] hunit hmean⟩

/-! ### Cache layer and orchestrator (`cluster_orchestrator.py`)

The pydantic models of `models.py` are embedded as records, floats as
rationals.  `json.dump` / `json.load` write and read a JSON document;
the cache directory is modelled as an association list from file name to
document, a later write to the same name shadowing the earlier one.
`hashlib.md5` and Python's string formatting of the two optional override
parameters are external deterministic functions and enter the model as
function parameters.  The `metadata` dict is modelled by its
deterministic fields; the wall-clock fields (`processing_time_seconds`,
`timestamp`) are outside the deterministic model. -/

structure Message where
  text : String
  channel : String
  user : String
  timestamp : String
  message_id : Option String
deriving DecidableEq, Repr

structure MessageWithTags where
  text : String
  channel : String
  user : String
  timestamp : String
  message_id : String
  tags : List String
  cluster_id : Option String
  embedding : Option (List ℚ)
deriving DecidableEq, Repr

structure ClusterInfo where
  cluster_id : String
  label : String
  tags : List String
  message_ids : List String
  size : ℕ
  centroid : Option (List ℚ)
  parent_cluster_id : Option String
  child_cluster_ids : List String
deriving DecidableEq, Repr

structure RunMetadata where
  total_messages : ℕ
  total_clusters : ℕ
  embedding_model : String
  llm_model : String
  distance_threshold : ℚ
  min_cluster_size : ℕ
deriving DecidableEq, Repr

structure ClusteringOutput where
  messages : List MessageWithTags
  clusters : List ClusterInfo
  metadata : RunMetadata
deriving DecidableEq, Repr

/-- JSON documents (numbers as rationals). -/
inductive Json where
  | null : Json
  | str : String → Json
  | num : ℚ → Json
  | nat : ℕ → Json
  | bool : Bool → Json
  | arr : List Json → Json
  | obj : List (String × Json) → Json

def encodeOptStr : Option String → Json
  | none => Json.null
  | some s => Json.str s

def encodeQList (l : List ℚ) : Json := Json.arr (l.map Json.num)

def encodeOptQList : Option (List ℚ) → Json
  | none => Json.null
  | some l => encodeQList l

def encodeStrList (l : List String) : Json := Json.arr (l.map Json.str)

def encodeMessageWithTags (m : MessageWithTags) : Json :=
  Json.obj [("text", Json.str m.text), ("channel", Json.str m.channel),
    ("user", Json.str m.user), ("timestamp", Json.str m.timestamp),
    ("message_id", Json.str m.message_id), ("tags", encodeStrList m.tags),
    ("cluster_id", encodeOptStr m.cluster_id),
    ("embedding", encodeOptQList m.embedding)]

def encodeClusterInfo (c : ClusterInfo) : Json :=
  Json.obj [("cluster_id", Json.str c.cluster_id), ("label", Json.str c.label),
    ("tags", encodeStrList c.tags), ("message_ids", encodeStrList c.message_ids),
    ("size", Json.nat c.size), ("centroid", encodeOptQList c.centroid),
    ("parent_cluster_id", encodeOptStr c.parent_cluster_id),
    ("child_cluster_ids", encodeStrList c.child_cluster_ids)]

def encodeMetadata (m : RunMetadata) : Json :=
  Json.obj [("total_messages", Json.nat m.total_messages),
    ("total_clusters", Json.nat m.total_clusters),
    ("embedding_model", Json.str m.embedding_model),
    ("llm_model", Json.str m.llm_model),
    ("distance_threshold", Json.num m.distance_threshold),
    ("min_cluster_size", Json.nat m.min_cluster_size)]

/-- `json.dump(result.model_dump(), f)`. -/
def encodeOutput (o : ClusteringOutput) : Json :=
  Json.obj [("messages", Json.arr (o.messages.map encodeMessageWithTags)),
    ("clusters", Json.arr (o.clusters.map encodeClusterInfo)),
    ("metadata", encodeMetadata o.metadata)]

def decodeOptStr : Json → Option (Option String)
  | Json.null => some none
  | Json.str s => some (some s)
  | _ => none

def decodeQItems : List Json → Option (List ℚ)
  | [] => some []
  | Json.num q :: xs => (decodeQItems xs).map (q :: ·)
  | _ => none

def decodeQList : Json → Option (List ℚ)
  | Json.arr l => decodeQItems l
  | _ => none

def decodeOptQList : Json → Option (Option (List ℚ))
  | Json.null => some none
  | j => (decodeQList j).map some

def decodeStrItems : List Json → Option (List String)
  | [] => some []
  | Json.str s :: xs => (decodeStrItems xs).map (s :: ·)
  | _ => none

def decodeStrList : Json → Option (List String)
  | Json.arr l => decodeStrItems l
  | _ => none

def decodeMessageWithTags : Json → Option MessageWithTags
  | Json.obj [("text", Json.str t), ("channel", Json.str c),
      ("user", Json.str u), ("timestamp", Json.str ts),
      ("message_id", Json.str id), ("tags", tags),
      ("cluster_id", cid), ("embedding", emb)] =>
    match decodeStrList tags, decodeOptStr cid, decodeOptQList emb with
    | some tg, some ci, some em => some ⟨t, c, u, ts, id, tg, ci, em⟩
    | _, _, _ => none
  | _ => none

def decodeClusterInfo : Json → Option ClusterInfo
  | Json.obj [("cluster_id", Json.str cid), ("label", Json.str lb),
      ("tags", tags), ("message_ids", mids),
      ("size", Json.nat sz), ("centroid", ctr),
      ("parent_cluster_id", pid), ("child_cluster_ids", chids)] =>
    match decodeStrList tags, decodeStrList mids, decodeOptQList ctr,
        decodeOptStr pid, decodeStrList chids with
    | some tg, some mi, some ct, some pi, some ch =>
      some ⟨cid, lb, tg, mi, sz, ct, pi, ch⟩
    | _, _, _, _, _ => none
  | _ => none

def decodeMetadata : Json → Option RunMetadata
  | Json.obj [("total_messages", Json.nat tm), ("total_clusters", Json.nat tc),
      ("embedding_model", Json.str em), ("llm_model", Json.str lm),
      ("distance_threshold", Json.num dt), ("min_cluster_size", Json.nat mcs)] =>
    some ⟨tm, tc, em, lm, dt, mcs⟩
  | _ => none

def decodeList (d : Json → Option α) : List Json → Option (List α)
  | [] => some []
  | x :: xs =>
    match d x, decodeList d xs with
    | some a, some as => some (a :: as)
    | _, _ => none

/-- `json.load` followed by `ClusteringOutput(**data)`. -/
def decodeOutput : Json → Option ClusteringOutput
  | Json.obj [("messages", Json.arr ms), ("clusters", Json.arr cs),
      ("metadata", md)] =>
    match decodeList decodeMessageWithTags ms, decodeList decodeClusterInfo cs,
        decodeMetadata md with
    | some m, some c, some d => some ⟨m, c, d⟩
    | _, _, _ => none
  | _ => none

/-- The cache directory: file name → stored document, most recent first. -/
def Store := List (String × Json)

/-- `_save_to_cache(cache_key, result)`: write
`{CACHE_DIR}/{cache_key}.json`. -/
def saveToCache (key : String) (result : ClusteringOutput) (store : Store) : Store :=
  (key ++ ".json", encodeOutput result) :: store

/-- `_load_from_cache(cache_key)`: read the file if it exists and parse it;
any failure is a miss. -/
def loadFromCache (key : String) (store : Store) : Option ClusteringOutput :=
  (List.lookup (key ++ ".json") store).bind decodeOutput

/-- `_generate_cache_key(messages, distance_threshold, min_cluster_size)`:
md5 of the concatenated message texts followed by
`f"{distance_threshold}_{min_cluster_size}"`.  `md5` and the Python
`repr` of the two optional parameters are external deterministic
functions. -/
def generateCacheKey (md5 : String → String) (floatRepr : Option ℚ → String)
    (intRepr : Option ℕ → String) (messages : List Message)
    (distanceThreshold : Option ℚ) (minClusterSize : Option ℕ) : String :=
  md5 (String.join (messages.map (·.text))
    ++ floatRepr distanceThreshold ++ "_" ++ intRepr minClusterSize)

/-- `process_messages(messages, force_recluster, distance_threshold,
min_cluster_size)`: generate the cache key, consult the cache unless
`force_recluster`, otherwise run the pipeline — message ids, embeddings,
hierarchy, labels, output assembly, none of which receives the two
override parameters (collapsed here into `compute`, a function of the
messages alone) — and write through to the cache.  Returns the output and
the cache state. -/
def processMessages (md5 : String → String) (floatRepr : Option ℚ → String)
    (intRepr : Option ℕ → String) (compute : List Message → ClusteringOutput)
    (enableCache : Bool) (store : Store) (messages : List Message)
    (forceRecluster : Bool) (distanceThreshold : Option ℚ)
    (minClusterSize : Option ℕ) : ClusteringOutput × Store :=
  let cacheKey := generateCacheKey md5 floatRepr intRepr messages
    distanceThreshold minClusterSize
  match (if enableCache && !forceRecluster then loadFromCache cacheKey store else none) with
  | some cached => (cached, store)
  | none =>
    let result := compute messages
    if enableCache then (result, saveToCache cacheKey result store)
    else (result, store)

theorem decodeStrItems_encode : ∀ (l : List String),
    decodeStrItems (l.map Json.str) = some l
  | [] => rfl
  | s :: ss => by
    rw [List.map_cons, decodeStrItems, decodeStrItems_encode ss]
    rfl

theorem decodeStrList_encode (l : List String) :
    decodeStrList (encodeStrList l) = some l :=
  decodeStrItems_encode l

theorem decodeQItems_encode : ∀ (l : List ℚ),
    decodeQItems (l.map Json.num) = some l
  | [] => rfl
  | q :: qs => by
    rw [List.map_cons, decodeQItems, decodeQItems_encode qs]
    rfl

theorem decodeQList_encode (l : List ℚ) :
    decodeQList (encodeQList l) = some l :=
  decodeQItems_encode l

theorem decodeOptStr_encode : ∀ (o : Option String),
    decodeOptStr (encodeOptStr o) = some o
  | none => rfl
  | some _ => rfl

theorem decodeOptQList_encode : ∀ (o : Option (List ℚ)),
    decodeOptQList (encodeOptQList o) = some o
  | none => rfl
  | some l => by
    show (decodeQList (Json.arr (l.map Json.num))).map some = some (some l)
    rw [show decodeQList (Json.arr (l.map Json.num)) = decodeQItems (l.map Json.num)
      from rfl]
    rw [decodeQItems_encode l]
    rfl

theorem decodeMessageWithTags_encode (m : MessageWithTags) :
    decodeMessageWithTags (encodeMessageWithTags m) = some m := by
  show (match decodeStrList (encodeStrList m.tags),
      decodeOptStr (encodeOptStr m.cluster_id),
      decodeOptQList (encodeOptQList m.embedding) with
    | some tg, some ci, some em =>
      some ⟨m.text, m.channel, m.user, m.timestamp, m.message_id, tg, ci, em⟩
    | _, _, _ => none) = some m
  rw [decodeStrList_encode, decodeOptStr_encode, decodeOptQList_encode]

theorem decodeClusterInfo_encode (c : ClusterInfo) :
    decodeClusterInfo (encodeClusterInfo c) = some c := by
  show (match decodeStrList (encodeStrList c.tags),
      decodeStrList (encodeStrList c.message_ids),
      decodeOptQList (encodeOptQList c.centroid),
      decodeOptStr (encodeOptStr c.parent_cluster_id),
      decodeStrList (encodeStrList c.child_cluster_ids) with
    | some tg, some mi, some ct, some pr, some ch =>
      some ⟨c.cluster_id, c.label, tg, mi, c.size, ct, pr, ch⟩
    | _, _, _, _, _ => none) = some c
  rw [decodeStrList_encode, decodeStrList_encode, decodeOptQList_encode,
    decodeOptStr_encode, decodeStrList_encode]

theorem decodeMetadata_encode (m : RunMetadata) :
    decodeMetadata (encodeMetadata m) = some m := rfl

theorem decodeList_encode (d : Json → Option α) (e : α → Json)
    (h : ∀ a, d (e a) = some a) : ∀ (l : List α), decodeList d (l.map e) = some l
  | [] => rfl
  | a :: as => by
    unfold decodeList
    rw [List.map_cons]
    simp only
    rw [h a, decodeList_encode d e h as]

theorem decodeOutput_encode (o : ClusteringOutput) :
    decodeOutput (encodeOutput o) = some o := by
  show (match decodeList decodeMessageWithTags (o.messages.map encodeMessageWithTags),
      decodeList decodeClusterInfo (o.clusters.map encodeClusterInfo),
      decodeMetadata (encodeMetadata o.metadata) with
    | some m, some c, some d => some ⟨m, c, d⟩
    | _, _, _ => none) = some o
  rw [decodeList_encode decodeMessageWithTags encodeMessageWithTags
      decodeMessageWithTags_encode,
    decodeList_encode decodeClusterInfo encodeClusterInfo decodeClusterInfo_encode,
    decodeMetadata_encode]

/-- A freshly saved entry is read back intact. -/
theorem cache_roundtrip (key : String) (out : ClusteringOutput) (store : Store) :
    loadFromCache key (saveToCache key out store) = some out := by
  unfold loadFromCache saveToCache
  rw [List.lookup_cons_self]
  exact decodeOutput_encode out

/-- C8: `put` then `get` returns the stored output bit-for-bit, and two
`process_messages` calls with identical message texts and identical
`distance_threshold` / `min_cluster_size` parameters produce the same
cache key (for the deterministic external `md5` and parameter
formatting). -/
theorem c8_cache (key : String) (out : ClusteringOutput) (store : Store)
    (md5 : String → String) (floatRepr : Option ℚ → String)
    (intRepr : Option ℕ → String) (msgs1 msgs2 : List Message)
    (dt1 dt2 : Option ℚ) (mcs1 mcs2 : Option ℕ)
    (htext : msgs1.map Message.text = msgs2.map Message.text)
    (hdt : dt1 = dt2) (hmcs : mcs1 = mcs2) :
    loadFromCache key (saveToCache key out store) = some out
    ∧ generateCacheKey md5 floatRepr intRepr msgs1 dt1 mcs1
        = generateCacheKey md5 floatRepr intRepr msgs2 dt2 mcs2 := by
  refine ⟨cache_roundtrip key out store, ?_⟩
  unfold generateCacheKey
  rw [htext, hdt, hmcs]

/-- Witness for C8 at a concrete key, output and message lists. -/
theorem c8_cache_witness :
    ([(⟨"a", "c", "u", "t", none⟩ : Message)].map Message.text
        = [(⟨"a", "c2", "u2", "t2", some "id"⟩ : Message)].map Message.text)
    ∧ (some (1 : ℚ) : Option ℚ) = some 1 ∧ (some 2 : Option ℕ) = some 2
    ∧ (loadFromCache "k" (saveToCache "k"
          (⟨[], [], ⟨0, 0, "m", "l", 1, 2⟩⟩ : ClusteringOutput) ([] : Store))
        = some (⟨[], [], ⟨0, 0, "m", "l", 1, 2⟩⟩ : ClusteringOutput)
      ∧ generateCacheKey (fun s => s) (fun _ => "f") (fun _ => "i")
          [⟨"a", "c", "u", "t", none⟩] (some 1) (some 2)
        = generateCacheKey (fun s => s) (fun _ => "f") (fun _ => "i")
          [⟨"a", "c2", "u2", "t2", some "id"⟩] (some 1) (some 2)) :=
  ⟨rfl, rfl, rfl,
   c8_cache "k" ⟨[], [], ⟨0, 0, "m", "l", 1, 2⟩⟩ ([] : Store) (fun s => s)
     (fun _ => "f") (fun _ => "i") [⟨"a", "c", "u", "t", none⟩]
     [⟨"a", "c2", "u2", "t2", some "id"⟩] (some 1) (some 1) (some 2) (some 2)
     rfl rfl rfl⟩

/-- C9: with `force_recluster=True`, two `process_messages` invocations
that differ only in the `distance_threshold` and `min_cluster_size`
override arguments return identical outputs: the overrides are consumed
only by cache-key generation, and the clustering pipeline (`compute`)
receives the messages alone. -/
theorem c9_overrides_only_affect_cache_key (md5 : String → String)
    (floatRepr : Option ℚ → String) (intRepr : Option ℕ → String)
    (compute : List Message → ClusteringOutput) (enableCache : Bool)
    (store : Store) (msgs : List Message) (dt1 dt2 : Option ℚ)
    (mcs1 mcs2 : Option ℕ) :
    (processMessages md5 floatRepr intRepr compute enableCache store msgs
        true dt1 mcs1).1
      = (processMessages md5 floatRepr intRepr compute enableCache store msgs
        true dt2 mcs2).1 := by
  unfold processMessages
  cases enableCache <;> simp

/-- C10: the cache key depends only on the concatenation of the message
texts (plus the two parameter values): any two message lists with equal
concatenated texts — regardless of channels, users, timestamps, ids, or
where the text boundaries fall — share the key, and a result cached for
one list is returned for the other. -/
theorem c10_key_collision (md5 : String → String)
    (floatRepr : Option ℚ → String) (intRepr : Option ℕ → String)
    (compute : List Message → ClusteringOutput) (msgsA msgsB : List Message)
    (dt : Option ℚ) (mcs : Option ℕ)
    (hjoin : String.join (msgsA.map Message.text)
        = String.join (msgsB.map Message.text)) :
    generateCacheKey md5 floatRepr intRepr msgsA dt mcs
        = generateCacheKey md5 floatRepr intRepr msgsB dt mcs
    ∧ (processMessages md5 floatRepr intRepr compute true
        ((processMessages md5 floatRepr intRepr compute true ([] : Store)
          msgsA false dt mcs).2)
        msgsB false dt mcs).1 = compute msgsA := by
  have hkey : generateCacheKey md5 floatRepr intRepr msgsA dt mcs
      = generateCacheKey md5 floatRepr intRepr msgsB dt mcs := by
    unfold generateCacheKey
    rw [hjoin]
  refine ⟨hkey, ?_⟩
  have h1 : processMessages md5 floatRepr intRepr compute true ([] : Store)
      msgsA false dt mcs
      = (compute msgsA,
         saveToCache (generateCacheKey md5 floatRepr intRepr msgsA dt mcs)
           (compute msgsA) ([] : Store)) := by
    unfold processMessages loadFromCache
    simp [List.lookup]
  rw [h1]
  unfold processMessages
  rw [← hkey]
  simp [cache_roundtrip]

/-- Witness for C10: `["ab"]` versus `["a", "b"]` with entirely different
channels, users, timestamps and ids. -/
theorem c10_key_collision_witness :
    (String.join ([(⟨"ab", "c1", "u1", "t1", none⟩ : Message)].map Message.text)
        = String.join ([(⟨"a", "c2", "u2", "t2", some "i2"⟩ : Message),
            ⟨"b", "c3", "u3", "t3", none⟩].map Message.text))
    ∧ (generateCacheKey (fun s => s) (fun _ => "f") (fun _ => "i")
          [⟨"ab", "c1", "u1", "t1", none⟩] none none
        = generateCacheKey (fun s => s) (fun _ => "f") (fun _ => "i")
          [⟨"a", "c2", "u2", "t2", some "i2"⟩, ⟨"b", "c3", "u3", "t3", none⟩] none none
      ∧ (processMessages (fun s => s) (fun _ => "f") (fun _ => "i")
          (fun _ => ⟨[], [], ⟨0, 0, "m", "l", 1, 2⟩⟩) true
          ((processMessages (fun s => s) (fun _ => "f") (fun _ => "i")
            (fun _ => ⟨[], [], ⟨0, 0, "m", "l", 1, 2⟩⟩) true ([] : Store)
            [⟨"ab", "c1", "u1", "t1", none⟩] false none none).2)
          [⟨"a", "c2", "u2", "t2", some "i2"⟩, ⟨"b", "c3", "u3", "t3", none⟩]
          false none none).1
        = (fun _ => (⟨[], [], ⟨0, 0, "m", "l", 1, 2⟩⟩ : ClusteringOutput))
            [(⟨"ab", "c1", "u1", "t1", none⟩ : Message)]) :=
  ⟨by decide,
   c10_key_collision (fun s => s) (fun _ => "f") (fun _ => "i")
     (fun _ => ⟨[], [], ⟨0, 0, "m", "l", 1, 2⟩⟩)
     [⟨"ab", "c1", "u1", "t1", none⟩]
     [⟨"a", "c2", "u2", "t2", some "i2"⟩, ⟨"b", "c3", "u3", "t3", none⟩]
     none none (by decide)⟩

end SlackCluster
